import Mathlib

/-!
A verification development for the `trie` Go library (package `trie`,
files `trie.go` and the `PathTrie` implementation file).

The embedding models Go strings as `List Char` (abbreviated `Str`), Go's
`map[string]*PathTrie[T]` as an association structure `ChildMap T`
(entry order models Go's unspecified map iteration order; insertion
appends, which agrees with Go map assignment whenever the inserted key is
not already present), Go's `*T` value field as `Option T`, and Go's
`error` results as `Except E Unit` (with `.ok ()` for `nil`).

`PathSegmenter` and `Delete` are referenced by the sources (the package
doc comment, the `Trier` interface in `trie.go`) but their code is not
among the source files; they are modelled from the spec, and marked so.
-/

namespace Trie

abbrev Str : Type := List Char

/-- Modelled from the spec: the default `PathSegmenter` is not among the
source files.  Per the spec's segmenter contract and the `PathTrie` doc
comment's example ("/a/b/c" -> "/a", "/b", "/c"), each returned segment
runs from the current start index up to (but excluding) the next `/`
strictly after it, so every segment is nonempty and contains `/` only
possibly as its first character.  `segsGo cur rest` carries the current
segment accumulated in reverse. -/
def segsGo (cur : Str) : Str → List Str
  | [] => [cur.reverse]
  | c :: cs => if c = '/' then cur.reverse :: segsGo [c] cs else segsGo (c :: cur) cs

/-- Modelled from the spec: the full segment sequence obtained by calling
the segmenter repeatedly from index `0`, stopping at the empty-segment
terminator.  The empty key yields no segments. -/
def segments : Str → List Str
  | [] => []
  | c :: cs => segsGo [c] cs

mutual
/-- `PathTrie` of the source: `Value *T` becomes `Option T`, and the
`Children map[string]*PathTrie[T]` becomes a `ChildMap T`.  The
`segmenter` field is not carried: all claims concern tries using the
default `PathSegmenter`, which `NewPathTrie` installs at construction
and which every node of one trie shares. -/
inductive PathTrie (T : Type) : Type where
  | mk (value : Option T) (children : ChildMap T)

/-- The children mapping: a sequence of (segment, child) entries with
Go-map lookup semantics (`lookupC`). -/
inductive ChildMap (T : Type) : Type where
  | nil
  | cons (seg : Str) (child : PathTrie T) (rest : ChildMap T)
end

variable {T : Type} {E : Type}

def PathTrie.Value : PathTrie T → Option T
  | .mk v _ => v

def PathTrie.Children : PathTrie T → ChildMap T
  | .mk _ cs => cs

/-- `NewPathTrie` allocates an empty root (no value, nil children map). -/
def NewPathTrie : PathTrie T := .mk none .nil

/-- Go map read `cs[s]`: `none` models the nil pointer returned for a
missing key. -/
def lookupC : ChildMap T → Str → Option (PathTrie T)
  | .nil, _ => none
  | .cons p c rest, s => if p = s then some c else lookupC rest s

/-- The loop body of `Get`:
`node = node.Children[part]; if node == nil { return *new(T) }` and, when
the segment list is exhausted, `return *node.Value`.  Dereferencing a nil
`Value` pointer is a Go runtime panic; the embedding returns
`.error ()` for it, and `.ok x` for a normal return of `x`.
`*new(T)` is the zero value of `T`, modelled by `default`. -/
def getGo [Inhabited T] : PathTrie T → List Str → Except Unit T
  | t, [] =>
      match t.Value with
      | some v => .ok v
      | none => .error ()
  | t, s :: ss =>
      match lookupC t.Children s with
      | none => .ok default
      | some c => getGo c ss

/-- `Get` of the source: iterate the segmenter over `key` (the segment
list `segments key`) and run the lookup loop. -/
def PathTrie.Get [Inhabited T] (t : PathTrie T) (key : Str) : Except Unit T :=
  getGo t (segments key)

/-- `trie.newPathTrie()`: a fresh empty node (config sharing is implicit
here, see `PathTrie`). -/
def newNode : PathTrie T := .mk none .nil

/-- The child-map update performed by one iteration of `Put`'s loop:
look up `s`; if present, continue in that child (`f (some c)` replaces it
in place, as Go mutates the shared node); if absent, insert a new entry
for `s` (Go: `node.Children[part] = child`). -/
def updateC (cs : ChildMap T) (s : Str) (f : Option (PathTrie T) → PathTrie T) :
    ChildMap T :=
  match cs with
  | .nil => .cons s (f none) .nil
  | .cons p c rest => if p = s then .cons p (f (some c)) rest else .cons p c (updateC rest s f)

/-- The loop of `Put`: walk the segment list, creating missing children
(`trie.newPathTrie()`), and at the terminal node set
`node.Value = &value`.  Note the source's `Put` returns nothing. -/
def putGo : PathTrie T → List Str → T → PathTrie T
  | t, [], v => .mk (some v) t.Children
  | t, s :: ss, v => .mk t.Value (updateC t.Children s (fun oc => putGo (oc.getD newNode) ss v))

/-- `Put` of the source: segment the key and run the insertion loop. -/
def PathTrie.Put (t : PathTrie T) (key : Str) (v : T) : PathTrie T :=
  putGo t (segments key) v

/-! ### Walk -/

mutual
/-- `walk` of the source: visit this node's value (if any) with the
accumulated `key`, abort on a walker error, then recurse into each child
with key `key ++ part`.  The walker is `Str → T → Except E Unit`
(`.ok ()` is Go's `nil` error). -/
def walk (t : PathTrie T) (key : Str) (w : Str → T → Except E Unit) : Except E Unit :=
  match t with
  | .mk val cs =>
      match (match val with | some v => w key v | none => Except.ok ()) with
      | .error e => .error e
      | .ok _ => walkC cs key w

/-- The `for part, child := range trie.Children` loop of `walk`
(entry order models Go's unspecified map order). -/
def walkC (cs : ChildMap T) (key : Str) (w : Str → T → Except E Unit) : Except E Unit :=
  match cs with
  | .nil => .ok ()
  | .cons p c rest =>
      match walk c (key ++ p) w with
      | .error e => .error e
      | .ok _ => walkC rest key w
end

/-- `Walk` of the source: `trie.walk("", walker)`. -/
def PathTrie.Walk (t : PathTrie T) (w : Str → T → Except E Unit) : Except E Unit :=
  walk t [] w

mutual
/-- The visit sequence of `walk`: the (key, value) pairs `walk` offers to
its walker, in order, when no error interrupts. -/
def walkList : PathTrie T → Str → List (Str × T)
  | .mk val cs, key => (match val with | some v => [(key, v)] | none => []) ++ walkListC cs key

def walkListC : ChildMap T → Str → List (Str × T)
  | .nil, _ => []
  | .cons p c rest, key => walkList c (key ++ p) ++ walkListC rest key
end

/-- Feed a visit sequence to a walker with the source's abort-on-error
policy: stop at the first error and return it unchanged, `.ok ()` if the
walker never fails. -/
def runW (w : Str → T → Except E Unit) : List (Str × T) → Except E Unit
  | [] => .ok ()
  | (k, v) :: rest =>
      match w k v with
      | .error e => .error e
      | .ok _ => runW w rest

/-! ### WalkPath -/

/-- Modelled from the spec: the successive `(part, i)` results of the
segmenter calls made by `WalkPath`'s loop, with the start index `i`
replaced by the consumed text `key[0:i]` it denotes (the segments
returned so far partition `key[0:i]`), and the `-1` sentinel by `none`.
All but the last pair carry `some`; the last carries `none`. -/
def pairsOf (consumed : Str) : List Str → List (Str × Option Str)
  | [] => []
  | [s] => [(s, none)]
  | s :: ss => (s, some (consumed ++ s)) :: pairsOf (consumed ++ s) ss

/-- Modelled from the spec: for the empty key the first segmenter call
returns `("", -1)` and `WalkPath`'s condition-free loop still looks up
`Children[""]` once; for other keys the loop sees exactly the segment
sequence with its sentinel on the last segment. -/
def segPairs (key : Str) : List (Str × Option Str) :=
  match segments key with
  | [] => [([], none)]
  | l => pairsOf [] l

/-- The loop of `WalkPath`: follow `Children[part]`; a missing child ends
the walk with `nil` (`.ok ()`); a node with a value is reported to the
walker keyed by the consumed text so far (`i == -1` uses the whole key);
`i == -1` breaks after the final segment. -/
def wpGo : PathTrie T → Str → List (Str × Option Str) → (Str → T → Except E Unit) →
    Except E Unit
  | _, _, [], _ => .ok ()
  | t, key, (part, nxt) :: rest, w =>
      match lookupC t.Children part with
      | none => .ok ()
      | some c =>
          match (match c.Value with
                 | some v => w (match nxt with | none => key | some p => p) v
                 | none => Except.ok ()) with
          | .error e => .error e
          | .ok _ =>
              match nxt with
              | none => .ok ()
              | some _ => wpGo c key rest w

/-- `WalkPath` of the source: report the root's value first (keyed by the
empty string), then run the loop over the key's segments. -/
def PathTrie.WalkPath (t : PathTrie T) (key : Str) (w : Str → T → Except E Unit) :
    Except E Unit :=
  match (match t.Value with | some v => w [] v | none => Except.ok ()) with
  | .error e => .error e
  | .ok _ => wpGo t key (segPairs key) w

/-- The visit sequence of `WalkPath`'s loop (see `walkList`). -/
def wplGo : PathTrie T → Str → List (Str × Option Str) → List (Str × T)
  | _, _, [] => []
  | t, key, (part, nxt) :: rest =>
      match lookupC t.Children part with
      | none => []
      | some c =>
          (match c.Value with
           | some v => [((match nxt with | none => key | some p => p), v)]
           | none => []) ++
          (match nxt with
           | none => []
           | some _ => wplGo c key rest)

/-- The full visit sequence of `WalkPath`: root pair first, then the loop's. -/
def walkPathList (t : PathTrie T) (key : Str) : List (Str × T) :=
  (match t.Value with | some v => [([], v)] | none => []) ++ wplGo t key (segPairs key)

/-! ### Merge and RecursiveDirectChildren -/

/-- Concatenation of child maps (used to splice entries; Go map
assignment overwrites on key collision, appending agrees with it when the
key is absent, which the well-formedness results establish). -/
def appendC : ChildMap T → ChildMap T → ChildMap T
  | .nil, b => b
  | .cons p c rest, b => .cons p c (appendC rest b)

/-- `addPre p cs` re-keys every entry `q ↦ n` of `cs` as `p ++ q ↦ n`
(the `part+cPart` keys of the source's splices). -/
def addPre (p : Str) : ChildMap T → ChildMap T
  | .nil => .nil
  | .cons q c rest => .cons (p ++ q) c (addPre p rest)

mutual
/-- `Merge` of the source: merge each child first; a child left without a
value donates its (already merged) children to this node under
concatenated keys and is dropped. -/
def Merge : PathTrie T → PathTrie T
  | .mk v cs => .mk v (mergeC cs)

def mergeC : ChildMap T → ChildMap T
  | .nil => .nil
  | .cons p c rest =>
      let c2 := Merge c
      match c2.Value with
      | some _ => .cons p c2 (mergeC rest)
      | none => appendC (addPre p c2.Children) (mergeC rest)
end

mutual
/-- `RecursiveDirectChildren` of the source: keep each value-bearing
child under its own segment; descend through a valueless child, re-keying
its recursive result with the child's segment in front. -/
def PathTrie.RecursiveDirectChildren : PathTrie T → ChildMap T
  | .mk _ cs => rdcC cs

def rdcC : ChildMap T → ChildMap T
  | .nil => .nil
  | .cons p c rest =>
      match c.Value with
      | some _ => .cons p c (rdcC rest)
      | none => appendC (addPre p c.RecursiveDirectChildren) (rdcC rest)
end

/-! ### Delete (modelled) -/

/-- Go map `delete(cs, s)` (first occurrence; keys are unique under the
well-formedness predicate). -/
def removeC : ChildMap T → Str → ChildMap T
  | .nil, _ => .nil
  | .cons p c rest, s => if p = s then rest else .cons p c (removeC rest s)

/-- Replace the entry at key `s` (models Go's in-place mutation of the
node the map points to). -/
def replaceC : ChildMap T → Str → PathTrie T → ChildMap T
  | .nil, _, _ => .nil
  | .cons p c rest, s, n => if p = s then .cons p n rest else .cons p c (replaceC rest s n)

def isNilC : ChildMap T → Bool
  | .nil => true
  | .cons _ _ _ => false

/-- Modelled from the spec: `Delete` is declared in the `Trier` interface
(trie.go) but not implemented among the source files.  Following §4.4:
walk to the terminal node for the key; if it does not exist return
`false` unchanged; otherwise clear its value, remove it from its parent
if it has no children, and recursively prune now empty-and-valueless
ancestors (the root is never pruned).  Returns true iff a value was
removed. -/
def delGo : PathTrie T → List Str → Bool × PathTrie T
  | t, [] =>
      match t.Value with
      | none => (false, t)
      | some _ => (true, .mk none t.Children)
  | t, s :: ss =>
      match lookupC t.Children s with
      | none => (false, t)
      | some c =>
          let r := delGo c ss
          if r.1 then
            if (r.2).Value.isNone && isNilC (r.2).Children then
              (true, .mk t.Value (removeC t.Children s))
            else
              (true, .mk t.Value (replaceC t.Children s r.2))
          else (false, t)

/-- Modelled from the spec (see `delGo`): segment the key, then delete. -/
def PathTrie.Delete (t : PathTrie T) (key : Str) : Bool × PathTrie T :=
  delGo t (segments key)

/-! ### Well-formedness

Tries reachable from `NewPathTrie` by `Put` have children keys that are
genuine `PathSegmenter` segments: nonempty, `/` only possibly first, and
(below the root) starting with `/`.  Keys are unique per map. -/

/-- A possible segment: nonempty, with `/` at most as its first character. -/
def SegStrB : Str → Bool
  | [] => false
  | _ :: rest => rest.all (· != '/')

/-- A possible non-initial segment: a segment starting with `/`. -/
def DeepStrB : Str → Bool
  | [] => false
  | c :: rest => (c == '/') && rest.all (· != '/')

/-- Key condition at a node: `deep` is false only at the root of the
operation, where a key's first segment may lack the leading `/`. -/
def KeyOKB (deep : Bool) (s : Str) : Bool :=
  if deep then DeepStrB s else SegStrB s

def keyMemC : Str → ChildMap T → Bool
  | _, .nil => false
  | s, .cons p _ rest => (p == s) || keyMemC s rest

mutual
def wfAux (deep : Bool) : PathTrie T → Bool
  | .mk _ cs => wfAuxC deep cs

def wfAuxC (deep : Bool) : ChildMap T → Bool
  | .nil => true
  | .cons p c rest =>
      KeyOKB deep p && !keyMemC p rest && wfAux true c && wfAuxC deep rest
end

/-- Well-formed trie (as a root of operations). -/
def wfb (t : PathTrie T) : Bool := wfAux false t

/-! ### Path lookup (specification side) -/

/-- Follow a list of segments from a node. -/
def lookupPath : PathTrie T → List Str → Option (PathTrie T)
  | t, [] => some t
  | t, s :: ss =>
      match lookupC t.Children s with
      | none => none
      | some c => lookupPath c ss

/-- The value stored at the end of a segment path (`none` when the path
is absent or ends at an internal node). -/
def valAt (t : PathTrie T) (ss : List Str) : Option T :=
  match lookupPath t ss with
  | none => none
  | some n => n.Value

def keysC : ChildMap T → List Str
  | .nil => []
  | .cons p _ rest => p :: keysC rest

def entriesC : ChildMap T → List (Str × PathTrie T)
  | .nil => []
  | .cons p c rest => (p, c) :: entriesC rest

/-- Specification-side chain for `WalkPath` (claim C6): the value-bearing
nodes along the key's segment path, each keyed by the consumed text so
far (the whole key for the last segment), cut short at a missing child. -/
def chainOf : PathTrie T → Str → Str → List Str → List (Str × T)
  | _, _, _, [] => []
  | t, consumed, key, s :: ss =>
      match lookupC t.Children s with
      | none => []
      | some c =>
          (match c.Value with
           | some v => [((if ss.isEmpty then key else consumed ++ s), v)]
           | none => []) ++ chainOf c (consumed ++ s) key ss

/-! ### Basic lemmas about lookup and update -/

/-- Induction along the entry list of a `ChildMap` (children untouched). -/
theorem ChildMap.inductOn {motive : ChildMap T → Prop} (hnil : motive .nil)
    (hcons : ∀ p c rest, motive rest → motive (.cons p c rest)) :
    ∀ cs : ChildMap T, motive cs
  | .nil => hnil
  | .cons p c rest => hcons p c rest (ChildMap.inductOn hnil hcons rest)

theorem lookupC_updateC_self (cs : ChildMap T) (s : Str)
    (f : Option (PathTrie T) → PathTrie T) :
    lookupC (updateC cs s f) s = some (f (lookupC cs s)) := by
  induction cs using ChildMap.inductOn with
  | hnil => simp [updateC, lookupC]
  | hcons p c rest ih =>
      by_cases h : p = s
      · simp [updateC, lookupC, h]
      · simp [updateC, lookupC, h, ih]

theorem getGo_putGo [Inhabited T] (ss : List Str) :
    ∀ (t : PathTrie T) (v : T), getGo (putGo t ss v) ss = .ok v := by
  induction ss with
  | nil => intro t v; simp [putGo, getGo, PathTrie.Value]
  | cons s ss ih =>
      intro t v
      simp only [putGo, getGo, PathTrie.Children, lookupC_updateC_self]
      exact ih _ v

/-- C1: for every trie, key and value, `Put(k, v)` followed by `Get(k)`
returns `v` (a normal, non-panicking return of exactly `v`). -/
theorem put_get [Inhabited T] (t : PathTrie T) (k : Str) (v : T) :
    (t.Put k v).Get k = .ok v :=
  getGo_putGo (segments k) t v

/-! ### Concrete tries used in evaluations and witnesses -/

def kA : Str := ['/', 'a']
def kB : Str := ['/', 'b']
def kX : Str := ['/', 'x']
def kAB : Str := ['/', 'a', '/', 'b']

/-- `Put("/a/b", 1)` on a fresh trie: `/a` is an internal (valueless) node. -/
def tAB : PathTrie Nat := NewPathTrie.Put kAB 1

/-- `Put("/a", 1)` on a fresh trie. -/
def tA : PathTrie Nat := NewPathTrie.Put kA 1

/-! ### Unfolding lemmas for `valAt` -/

theorem valAt_nil (t : PathTrie T) : valAt t [] = t.Value := rfl

theorem valAt_cons (t : PathTrie T) (s : Str) (ss : List Str) :
    valAt t (s :: ss) =
      match lookupC t.Children s with
      | none => none
      | some c => valAt c ss := by
  cases h : lookupC t.Children s <;> simp [valAt, lookupPath, h]

/-- C2 (code divergence): the source's `Get` ends in `return *node.Value`;
when the consumed segment sequence lands on a node holding no value — the
fresh root for the empty key, or the internal node `/a` of a trie built by
`Put("/a/b", 1)` — this dereferences a nil pointer and panics
(`.error ()`) instead of returning the zero value.  A missing child mid
walk does return the zero value (`Get("/x")` below), as the claim says. -/
theorem get_internal_panics :
    (NewPathTrie : PathTrie Nat).Get [] = .error () ∧
      tAB.Get kA = .error () ∧ tAB.Get kX = .ok 0 :=
  ⟨rfl, rfl, rfl⟩

/-- C4 (code divergence): the source's `Put` returns nothing — evaluated
at a fresh trie and key `/a` it produces only the updated trie, with no
insert/replace boolean anywhere (contrast `Trier.Put`'s declared `bool`
and `Put`'s own doc comment). -/
theorem put_returns_only_trie :
    (NewPathTrie : PathTrie Nat).Put kA 1 =
      PathTrie.mk none (.cons kA (.mk (some 1) .nil) .nil) :=
  rfl

/-- C10 (code divergence): `Put("/a/b", 1)` on a fresh trie changes the
observable behaviour of `Get("/a")` — before the put it returns the zero
value, afterwards the freshly created internal node `/a` makes `Get`
panic on the nil `Value` pointer. -/
theorem put_breaks_ancestor_get :
    (NewPathTrie : PathTrie Nat).Get kA = .ok 0 ∧
      ((NewPathTrie : PathTrie Nat).Put kAB 1).Get kA = .error () :=
  ⟨rfl, rfl⟩

/-- C3 (counterexample): `Merge` does not preserve `Get` for stored keys
whose path crosses a valueless node: with value 1 stored at `/a/b`
(and `/a` internal), merging re-keys the node to the single segment
`/a/b`, and `Get("/a/b")` — which still consumes segments `/a`, `/b` —
finds no child `/a` and returns the zero value 0, not 1. -/
theorem merge_breaks_get :
    tAB.Get kAB = .ok 1 ∧ (Merge tAB).Get kAB = .ok 0 ∧
      ((Except.ok 0 : Except Unit Nat) ≠ .ok 1) :=
  ⟨rfl, rfl, fun h => absurd (Except.ok.inj h) (by decide)⟩

/-! ### C8: Delete on an absent key -/

theorem delGo_absent : ∀ (ss : List Str) (t : PathTrie T),
    valAt t ss = none → delGo t ss = (false, t)
  | [], t, h => by
      rw [valAt_nil] at h
      simp [delGo, h]
  | s :: ss, t, h => by
      rw [valAt_cons] at h
      cases hc : lookupC t.Children s with
      | none => simp [delGo, hc]
      | some c =>
          rw [hc] at h
          simp [delGo, hc, delGo_absent ss c h]

/-- C8: deleting a key at which no value is stored (the path is missing
or ends at an internal node) returns `false` and leaves the trie
unchanged. -/
theorem delete_absent_noop (t : PathTrie T) (k : Str)
    (h : valAt t (segments k) = none) :
    t.Delete k = (false, t) :=
  delGo_absent (segments k) t h

/-- Witness for C8 at a concrete input: the trie holding 1 at `/a`, key
`/b` (never inserted). -/
theorem delete_absent_noop_witness :
    valAt tA (segments kB) = none ∧ tA.Delete kB = (false, tA) :=
  ⟨rfl, delete_absent_noop tA kB rfl⟩

/-! ### C7: error propagation of Walk and WalkPath -/

theorem runW_append (w : Str → T → Except E Unit) (a b : List (Str × T)) :
    runW w (a ++ b) =
      match runW w a with
      | .error e => .error e
      | .ok _ => runW w b := by
  induction a with
  | nil => simp [runW]
  | cons hd rest ih =>
      obtain ⟨k, v⟩ := hd
      simp only [List.cons_append, runW]
      cases w k v <;> simp [ih]

mutual
theorem walk_eq_runW (t : PathTrie T) (key : Str) (w : Str → T → Except E Unit) :
    walk t key w = runW w (walkList t key) := by
  cases t with
  | mk val cs =>
      cases val with
      | none => simpa only [walk, walkList, List.nil_append] using walkC_eq_runW cs key w
      | some v =>
          simp only [walk, walkList, List.singleton_append, runW]
          cases w key v with
          | error e => rfl
          | ok u => exact walkC_eq_runW cs key w

theorem walkC_eq_runW (cs : ChildMap T) (key : Str) (w : Str → T → Except E Unit) :
    walkC cs key w = runW w (walkListC cs key) := by
  cases cs with
  | nil => rfl
  | cons p c rest =>
      simp only [walkC, walkListC, runW_append, walk_eq_runW c (key ++ p) w]
      cases runW w (walkList c (key ++ p)) with
      | error e => rfl
      | ok u => exact walkC_eq_runW rest key w
end

theorem wpGo_eq_runW (ps : List (Str × Option Str)) :
    ∀ (t : PathTrie T) (key : Str) (w : Str → T → Except E Unit),
      wpGo t key ps w = runW w (wplGo t key ps) := by
  induction ps with
  | nil => intro t key w; rfl
  | cons hd rest ih =>
      intro t key w
      obtain ⟨part, nxt⟩ := hd
      simp only [wpGo, wplGo]
      cases hc : lookupC t.Children part with
      | none => rfl
      | some c =>
          cases hv : c.Value with
          | none =>
              simp only [hv, List.nil_append]
              cases nxt with
              | none => rfl
              | some p => exact ih c key w
          | some v =>
              simp only [hv, List.singleton_append, runW]
              cases w (match nxt with | none => key | some p => p) v with
              | error e => rfl
              | ok u =>
                  cases nxt with
                  | none => rfl
                  | some p => exact ih c key w

/-- C7: `Walk` and `WalkPath` run the caller's walker over their visit
sequences with abort-on-first-error semantics — `runW` stops at the first
walker error and returns that exact error value, visits nothing further,
and yields `.ok ()` (Go `nil`) when the walker never fails. -/
theorem walker_error_propagation (t : PathTrie T) (key : Str)
    (w : Str → T → Except E Unit) :
    t.Walk w = runW w (walkList t []) ∧
      t.WalkPath key w = runW w (walkPathList t key) := by
  refine ⟨walk_eq_runW t [] w, ?_⟩
  unfold PathTrie.WalkPath walkPathList
  cases hv : t.Value with
  | none => simpa only [List.nil_append] using wpGo_eq_runW (segPairs key) t key w
  | some v =>
      simp only [List.singleton_append, runW]
      cases w [] v with
      | error e => rfl
      | ok u => exact wpGo_eq_runW (segPairs key) t key w

/-! ### C6: WalkPath visits the chain to the addressed node -/

theorem keyOKB_ne_nil {deep : Bool} {s : Str} (h : KeyOKB deep s = true) : s ≠ [] := by
  intro he
  subst he
  cases deep <;> simp [KeyOKB, SegStrB, DeepStrB] at h

theorem lookupC_nil_key {deep : Bool} (cs : ChildMap T) (h : wfAuxC deep cs = true) :
    lookupC cs [] = none := by
  induction cs using ChildMap.inductOn with
  | hnil => rfl
  | hcons p c rest ih =>
      simp only [wfAuxC, Bool.and_eq_true] at h
      obtain ⟨⟨⟨hk, _⟩, _⟩, hrest⟩ := h
      simp only [lookupC]
      rw [if_neg (keyOKB_ne_nil hk)]
      exact ih hrest

theorem wplGo_pairsOf : ∀ (l : List Str), l ≠ [] →
    ∀ (t : PathTrie T) (consumed key : Str),
      wplGo t key (pairsOf consumed l) = chainOf t consumed key l
  | [], h, _, _, _ => absurd rfl h
  | [s], _, t, consumed, key => by
      simp only [pairsOf, wplGo, chainOf]
      cases hc : lookupC t.Children s with
      | none => rfl
      | some c =>
          cases hv : c.Value with
          | none => simp [hv, chainOf]
          | some v => simp [hv, chainOf]
  | s :: s2 :: ss, _, t, consumed, key => by
      simp only [pairsOf, wplGo, chainOf]
      cases hc : lookupC t.Children s with
      | none => rfl
      | some c =>
          cases hv : c.Value with
          | none =>
              simp [hv, wplGo_pairsOf (s2 :: ss) (by simp) c (consumed ++ s) key,
                chainOf, List.append_assoc]
          | some v =>
              simp [hv, wplGo_pairsOf (s2 :: ss) (by simp) c (consumed ++ s) key,
                chainOf, List.append_assoc]

/-- C6: on a well-formed trie, `WalkPath`'s visit sequence is exactly the
root's value (if set, keyed by the empty string) followed by the
value-bearing nodes along the key's segment chain in root-to-leaf order,
each keyed by the consumed text so far (the entire key for the node
reached by the final segment), cut short silently at a missing child
(`chainOf`). -/
theorem walkPath_visits_chain (t : PathTrie T) (key : Str) (h : wfb t = true) :
    walkPathList t key =
      (match t.Value with | some v => [([], v)] | none => []) ++
        chainOf t [] key (segments key) := by
  unfold walkPathList
  congr 1
  unfold segPairs
  cases hs : segments key with
  | nil =>
      have hnil : lookupC t.Children [] = none := by
        cases t with
        | mk v cs => exact lookupC_nil_key cs h
      simp [wplGo, chainOf, hnil]
  | cons s ss => exact wplGo_pairsOf (s :: ss) (by simp) t [] key

def kABC : Str := ['/', 'a', '/', 'b', '/', 'c']

/-- The spec's WalkPath example: values at `/a` (1) and `/a/b/c` (2),
nothing at `/a/b`. -/
def t6 : PathTrie Nat := (NewPathTrie.Put kA 1).Put kABC 2

/-- Witness for C6: the spec's own example instance. -/
theorem walkPath_visits_chain_witness :
    wfb t6 = true ∧
      walkPathList t6 kABC =
        (match t6.Value with | some v => [([], v)] | none => []) ++
          chainOf t6 [] kABC (segments kABC) :=
  ⟨rfl, walkPath_visits_chain t6 kABC rfl⟩

/-! ### C3: Merge versus Get -/

theorem Merge_Value (t : PathTrie T) : (Merge t).Value = t.Value := by
  cases t
  rfl

theorem Merge_Children (t : PathTrie T) : (Merge t).Children = mergeC t.Children := by
  cases t
  rfl

theorem wfAux_children (deep : Bool) (t : PathTrie T) :
    wfAux deep t = wfAuxC deep t.Children := by
  cases t
  rfl

theorem keysC_appendC (a b : ChildMap T) : keysC (appendC a b) = keysC a ++ keysC b := by
  induction a using ChildMap.inductOn with
  | hnil => rfl
  | hcons p c rest ih => simp [appendC, keysC, ih]

theorem keysC_addPre (p : Str) (cs : ChildMap T) :
    keysC (addPre p cs) = (keysC cs).map (p ++ ·) := by
  induction cs using ChildMap.inductOn with
  | hnil => rfl
  | hcons q c rest ih => simp [addPre, keysC, ih]

theorem deepStrB_spec {s : Str} (h : DeepStrB s = true) :
    s ≠ [] ∧ s.head? = some '/' := by
  cases s with
  | nil => simp [DeepStrB] at h
  | cons c cs =>
      simp only [DeepStrB, Bool.and_eq_true, beq_iff_eq] at h
      exact ⟨by simp, by simp [h.1]⟩

/-- A segment has `/` at most first, so gluing anything behind a nonempty
string whose continuation starts with `/` can never be a segment. -/
theorem seg_no_mid_slash {s p q : Str} (hs : SegStrB s = true) (hp : p ≠ [])
    (hq : q.head? = some '/') : p ++ q ≠ s := by
  intro he
  cases p with
  | nil => exact hp rfl
  | cons p0 p' =>
      cases q with
      | nil => simp at hq
      | cons q0 q' =>
          simp only [List.head?, Option.some.injEq] at hq
          subst he
          simp [SegStrB, hq] at hs

/-- Keys produced by merging the children of a deep well-formed node are
nonempty and start with `/`. -/
theorem mergeC_keys_head (cs : ChildMap T) (h : wfAuxC true cs = true) :
    ∀ q ∈ keysC (mergeC cs), q ≠ [] ∧ q.head? = some '/' := by
  induction cs using ChildMap.inductOn with
  | hnil => intro q hq; simp [mergeC, keysC] at hq
  | hcons p c rest ih =>
      simp only [wfAuxC, Bool.and_eq_true] at h
      obtain ⟨⟨⟨hk, _⟩, _⟩, hrest⟩ := h
      have hkd : DeepStrB p = true := hk
      intro q hq
      simp only [mergeC] at hq
      cases hv : (Merge c).Value with
      | some v =>
          simp only [hv, keysC, List.mem_cons] at hq
          rcases hq with rfl | hq
          · exact deepStrB_spec hkd
          · exact ih hrest q hq
      | none =>
          simp only [hv, keysC_appendC, keysC_addPre, List.mem_append,
            List.mem_map] at hq
          rcases hq with ⟨q', _, rfl⟩ | hq
          · obtain ⟨hne, hhd⟩ := deepStrB_spec hkd
            constructor
            · cases p <;> simp_all
            · cases p with
              | nil => exact absurd rfl hne
              | cons p0 p' => simpa using hhd
          · exact ih hrest q hq

theorem lookupC_appendC_of_notmem (a b : ChildMap T) (s : Str)
    (h : ∀ q ∈ keysC a, q ≠ s) : lookupC (appendC a b) s = lookupC b s := by
  induction a using ChildMap.inductOn with
  | hnil => rfl
  | hcons p c rest ih =>
      simp only [appendC, lookupC]
      rw [if_neg (h p (by simp [keysC]))]
      exact ih (fun q hq => h q (by simp [keysC, hq]))

theorem lookupC_wfAux {deep : Bool} (cs : ChildMap T) (s : Str) (c : PathTrie T)
    (h : wfAuxC deep cs = true) (hc : lookupC cs s = some c) :
    wfAux true c = true := by
  induction cs using ChildMap.inductOn with
  | hnil => simp [lookupC] at hc
  | hcons p c0 rest ih =>
      simp only [wfAuxC, Bool.and_eq_true] at h
      obtain ⟨⟨⟨_, _⟩, hc0⟩, hrest⟩ := h
      simp only [lookupC] at hc
      by_cases hp : p = s
      · rw [if_pos hp] at hc
        cases hc
        exact hc0
      · rw [if_neg hp] at hc
        exact ih hrest hc

/-- A value-bearing child survives `Merge` under its own key: no spliced
key can collide with a genuine segment. -/
theorem lookupC_mergeC {deep : Bool} (cs : ChildMap T) (s : Str) (c : PathTrie T)
    (hwf : wfAuxC deep cs = true) (hs : SegStrB s = true)
    (hc : lookupC cs s = some c) (hv : c.Value.isSome = true) :
    lookupC (mergeC cs) s = some (Merge c) := by
  induction cs using ChildMap.inductOn with
  | hnil => simp [lookupC] at hc
  | hcons p c0 rest ih =>
      simp only [wfAuxC, Bool.and_eq_true] at hwf
      obtain ⟨⟨⟨hk, _⟩, hc0wf⟩, hrest⟩ := hwf
      simp only [lookupC] at hc
      by_cases hp : p = s
      · rw [if_pos hp] at hc
        cases hc
        simp only [mergeC, Merge_Value]
        cases hv2 : c.Value with
        | none => rw [hv2] at hv; simp at hv
        | some v2 =>
            simp only [hv2, lookupC]
            rw [if_pos hp]
      · rw [if_neg hp] at hc
        simp only [mergeC]
        cases hv2 : (Merge c0).Value with
        | some v2 =>
            simp only [hv2, lookupC]
            rw [if_neg hp]
            exact ih hrest hc
        | none =>
            simp only [hv2]
            rw [lookupC_appendC_of_notmem]
            · exact ih hrest hc
            · intro q hq
              rw [keysC_addPre] at hq
              obtain ⟨q', hq', rfl⟩ := List.mem_map.mp hq
              rw [Merge_Children] at hq'
              have hq'h := mergeC_keys_head c0.Children
                (by rw [← wfAux_children]; exact hc0wf) q' hq'
              exact seg_no_mid_slash hs (keyOKB_ne_nil hk) hq'h.2

theorem valAt_cons_lookup {t : PathTrie T} {s : Str} {c : PathTrie T}
    (h : lookupC t.Children s = some c) (ss : List Str) :
    valAt t (s :: ss) = valAt c ss := by
  rw [valAt_cons, h]

/-- Every segment the (modelled) segmenter produces is a `SegStrB`. -/
theorem segsGo_SegStrB : ∀ (cs cur : Str), SegStrB cur.reverse = true →
    ∀ s ∈ segsGo cur cs, SegStrB s = true
  | [], cur, h, s, hs => by
      simp only [segsGo, List.mem_singleton] at hs
      exact hs ▸ h
  | c :: cs, cur, h, s, hs => by
      simp only [segsGo] at hs
      by_cases hc : c = '/'
      · rw [if_pos hc] at hs
        rcases List.mem_cons.mp hs with rfl | hs
        · exact h
        · exact segsGo_SegStrB cs [c] (by simp [hc, SegStrB]) s hs
      · rw [if_neg hc] at hs
        refine segsGo_SegStrB cs (c :: cur) ?_ s hs
        rcases hcur : cur.reverse with _ | ⟨x, xt⟩
        · simp [List.reverse_eq_nil_iff] at hcur
          simp [hcur, SegStrB]
        · rw [hcur] at h
          simp only [List.reverse_cons, hcur]
          simp only [SegStrB, List.all_append, List.all_cons, Bool.and_eq_true] at h ⊢
          simpa [h] using hc

theorem segments_SegStrB (key : Str) : ∀ s ∈ segments key, SegStrB s = true := by
  cases key with
  | nil => intro s hs; simp [segments] at hs
  | cons c cs => exact segsGo_SegStrB cs [c] (by simp [SegStrB])

theorem getGo_of_valAt [Inhabited T] : ∀ (ss : List Str) (t : PathTrie T) (v : T),
    valAt t ss = some v → getGo t ss = .ok v
  | [], t, v, h => by
      rw [valAt_nil] at h
      simp [getGo, h]
  | s :: ss, t, v, h => by
      rw [valAt_cons] at h
      cases hc : lookupC t.Children s with
      | none => rw [hc] at h; simp at h
      | some c =>
          rw [hc] at h
          simp only [getGo, hc]
          exact getGo_of_valAt ss c v h

/-- Merging preserves `valAt` along a path all of whose strict prefixes
hold values. -/
theorem valAt_merge {deep : Bool} : ∀ (ss : List Str) (t : PathTrie T) (v : T),
    wfAux deep t = true →
    (∀ s ∈ ss, SegStrB s = true) →
    (∀ i, i < ss.length → 0 < i → (valAt t (ss.take i)).isSome = true) →
    valAt t ss = some v → valAt (Merge t) ss = some v
  | [], t, v, _, _, _, h => by
      rw [valAt_nil] at h
      rw [valAt_nil, Merge_Value]
      exact h
  | s :: ss, t, v, hwf, hseg, hmid, h => by
      cases hc : lookupC t.Children s with
      | none => rw [valAt_cons, hc] at h; simp at h
      | some c =>
          rw [valAt_cons_lookup hc] at h
          have hcwf : wfAux true c = true :=
            lookupC_wfAux t.Children s c (by rw [← wfAux_children]; exact hwf) hc
          have hcv : c.Value.isSome = true := by
            cases ss with
            | nil =>
                rw [valAt_nil] at h
                rw [h]
                rfl
            | cons s2 ss2 =>
                have h1 := hmid 1 (by simp) (by simp)
                rwa [show List.take 1 (s :: s2 :: ss2) = [s] from rfl,
                  valAt_cons_lookup hc, valAt_nil] at h1
          have hlm : lookupC (mergeC t.Children) s = some (Merge c) :=
            lookupC_mergeC t.Children s c (by rw [← wfAux_children]; exact hwf)
              (hseg s (by simp)) hc hcv
          have hlm2 : lookupC (Merge t).Children s = some (Merge c) := by
            rw [Merge_Children]
            exact hlm
          rw [valAt_cons_lookup hlm2]
          cases ss with
          | nil =>
              rw [valAt_nil] at h ⊢
              rw [Merge_Value]
              exact h
          | cons s2 ss2 =>
              refine valAt_merge (s2 :: ss2) c v hcwf
                (fun x hx => hseg x (by simp [hx])) ?_ h
              intro i hi hpos
              have h2 := hmid (i + 1) (by simpa using hi) (by omega)
              rwa [List.take_succ_cons, valAt_cons_lookup hc] at h2

/-- C3 (amended): `Merge` preserves the result of `Get` for every stored
key all of whose strict ancestors along the segment path themselves hold
values (in general the collapse of valueless intermediate nodes re-keys
the chain, and `Get` along the original key returns the zero value
instead — see the counterexample). -/
theorem merge_preserves_get_on_valued_chains [Inhabited T] (t : PathTrie T)
    (k : Str) (v : T) (hwf : wfb t = true)
    (hmid : ∀ i, i < (segments k).length → 0 < i →
      (valAt t ((segments k).take i)).isSome = true)
    (hv : valAt t (segments k) = some v) :
    (Merge t).Get k = .ok v :=
  getGo_of_valAt (segments k) (Merge t) v
    (valAt_merge (segments k) t v hwf (segments_SegStrB k) hmid hv)

/-- The chain `/a` (value 7) → `/a/b` (value 1): every strict ancestor of
`/a/b` holds a value. -/
def t3 : PathTrie Nat := (NewPathTrie.Put kA 7).Put kAB 1

/-- Witness for the amended C3 at a concrete input. -/
theorem merge_preserves_get_witness :
    (wfb t3 = true ∧
      (∀ i, i < (segments kAB).length → 0 < i →
        (valAt t3 ((segments kAB).take i)).isSome = true) ∧
      valAt t3 (segments kAB) = some 1) ∧
    (Merge t3).Get kAB = .ok 1 :=
  ⟨⟨rfl, by decide, rfl⟩,
    merge_preserves_get_on_valued_chains t3 kAB 1 rfl (by decide) rfl⟩

/-! ### C5: Walk visits exactly the stored keys -/

theorem keyMemC_eq_mem (s : Str) (cs : ChildMap T) :
    keyMemC s cs = true ↔ s ∈ keysC cs := by
  induction cs using ChildMap.inductOn with
  | hnil => simp [keyMemC, keysC]
  | hcons p c rest ih =>
      simp [keyMemC, keysC, ih, Bool.or_eq_true, beq_iff_eq, @eq_comm _ p s]

theorem lookupC_keyMemC (cs : ChildMap T) (s : Str) (c : PathTrie T)
    (h : lookupC cs s = some c) : keyMemC s cs = true := by
  induction cs using ChildMap.inductOn with
  | hnil => simp [lookupC] at h
  | hcons p c0 rest ih =>
      simp only [lookupC] at h
      by_cases hp : p = s
      · simp [keyMemC, hp]
      · rw [if_neg hp] at h
        simp [keyMemC, ih h]

theorem lookupC_keyOK {deep : Bool} (cs : ChildMap T) (s : Str) (c : PathTrie T)
    (h : wfAuxC deep cs = true) (hc : lookupC cs s = some c) :
    KeyOKB deep s = true := by
  induction cs using ChildMap.inductOn with
  | hnil => simp [lookupC] at hc
  | hcons p c0 rest ih =>
      simp only [wfAuxC, Bool.and_eq_true] at h
      obtain ⟨⟨⟨hk, _⟩, _⟩, hrest⟩ := h
      simp only [lookupC] at hc
      by_cases hp : p = s
      · exact hp ▸ hk
      · rw [if_neg hp] at hc
        exact ih hrest hc

theorem keyOKB_SegStrB {deep : Bool} {s : Str} (h : KeyOKB deep s = true) :
    SegStrB s = true := by
  cases deep with
  | false => exact h
  | true =>
      have h' : DeepStrB s = true := h
      cases s with
      | nil => simp [DeepStrB] at h'
      | cons c cs =>
          simp only [DeepStrB, Bool.and_eq_true] at h'
          exact h'.2

theorem noslash_append_inj : ∀ (a b ra rb : Str),
    a.all (· != '/') = true → b.all (· != '/') = true →
    (ra = [] ∨ ra.head? = some '/') → (rb = [] ∨ rb.head? = some '/') →
    a ++ ra = b ++ rb → a = b
  | [], [], _, _, _, _, _, _, _ => rfl
  | [], b0 :: b', ra, rb, _, hb, hra, _, h => by
      exfalso
      simp only [List.nil_append, List.cons_append] at h
      rcases hra with rfl | hra
      · exact List.cons_ne_nil _ _ h.symm
      · rw [h] at hra
        simp only [List.head?, Option.some.injEq] at hra
        simp only [List.all_cons, Bool.and_eq_true, bne_iff_ne, ne_eq] at hb
        exact hb.1 hra
  | a0 :: a', [], ra, rb, ha, _, hra, hrb, h => by
      exfalso
      simp only [List.nil_append, List.cons_append] at h
      rcases hrb with rfl | hrb
      · exact List.cons_ne_nil _ _ h
      · rw [← h] at hrb
        simp only [List.head?, Option.some.injEq] at hrb
        simp only [List.all_cons, Bool.and_eq_true, bne_iff_ne, ne_eq] at ha
        exact ha.1 hrb
  | a0 :: a', b0 :: b', ra, rb, ha, hb, hra, hrb, h => by
      simp only [List.cons_append, List.cons.injEq] at h
      obtain ⟨rfl, h2⟩ := h
      simp only [List.all_cons, Bool.and_eq_true] at ha hb
      rw [noslash_append_inj a' b' ra rb ha.2 hb.2 hra hrb h2]

/-- Two segments followed by continuations that are empty or start with
`/` can only concatenate to the same string if the segments agree. -/
theorem seg_append_inj {p q rp rq : Str} (hp : SegStrB p = true)
    (hq : SegStrB q = true)
    (hrp : rp = [] ∨ rp.head? = some '/') (hrq : rq = [] ∨ rq.head? = some '/')
    (he : p ++ rp = q ++ rq) : p = q := by
  cases p with
  | nil => simp [SegStrB] at hp
  | cons p0 p' =>
      cases q with
      | nil => simp [SegStrB] at hq
      | cons q0 q' =>
          simp only [List.cons_append, List.cons.injEq] at he
          obtain ⟨rfl, h2⟩ := he
          simp only [SegStrB] at hp hq
          rw [noslash_append_inj p' q' rp rq hp hq hrp hrq h2]

mutual

/-- Membership in `walk`'s visit sequence: a pair `(k, v)` is visited
from a well-formed node iff some segment path below the node stores `v`
and `k` is the accumulated key followed by that path's concatenation. -/
theorem mem_walkList (deep : Bool) : ∀ (t : PathTrie T) (pre k : Str) (v : T),
    wfAux deep t = true →
    ((k, v) ∈ walkList t pre ↔
      ∃ ss : List Str, valAt t ss = some v ∧ k = pre ++ ss.flatten)
  | .mk val cs, pre, k, v, hwf => by
      constructor
      · intro hm
        simp only [walkList, List.mem_append] at hm
        rcases hm with hroot | hchild
        · cases val with
          | none => simp at hroot
          | some v0 =>
              simp only [List.mem_singleton, Prod.mk.injEq] at hroot
              obtain ⟨rfl, rfl⟩ := hroot
              exact ⟨[], rfl, by simp⟩
        · obtain ⟨s, c, ss, hl, hv, rfl⟩ :=
            (mem_walkListC deep cs pre k v hwf).mp hchild
          refine ⟨s :: ss, ?_, by simp [List.append_assoc]⟩
          rw [valAt_cons_lookup (show lookupC (PathTrie.mk val cs).Children s = some c from hl)]
          exact hv
      · rintro ⟨ss, hv, rfl⟩
        cases ss with
        | nil =>
            rw [valAt_nil] at hv
            have hval : val = some v := hv
            simp [walkList, hval]
        | cons s ss2 =>
            have hc : ∃ c, lookupC cs s = some c := by
              rw [valAt_cons] at hv
              cases hl : lookupC (PathTrie.mk val cs).Children s with
              | none => rw [hl] at hv; simp at hv
              | some c => exact ⟨c, hl⟩
            obtain ⟨c, hl⟩ := hc
            rw [valAt_cons_lookup
              (show lookupC (PathTrie.mk val cs).Children s = some c from hl)] at hv
            simp only [walkList, List.mem_append]
            right
            exact (mem_walkListC deep cs pre _ v hwf).mpr
              ⟨s, c, ss2, hl, hv, by simp [List.append_assoc]⟩

theorem mem_walkListC (deep : Bool) : ∀ (cs : ChildMap T) (pre k : Str) (v : T),
    wfAuxC deep cs = true →
    ((k, v) ∈ walkListC cs pre ↔
      ∃ (s : Str) (c : PathTrie T) (ss : List Str),
        lookupC cs s = some c ∧ valAt c ss = some v ∧ k = pre ++ s ++ ss.flatten)
  | .nil, pre, k, v, hwf => by
      constructor
      · intro hm; simp [walkListC] at hm
      · rintro ⟨s, c, ss, hl, _, _⟩; simp [lookupC] at hl
  | .cons p c rest, pre, k, v, hwf => by
      have hw := hwf
      simp only [wfAuxC, Bool.and_eq_true] at hw
      obtain ⟨⟨⟨hk, hm⟩, hcwf⟩, hrest⟩ := hw
      constructor
      · intro hmem
        simp only [walkListC, List.mem_append] at hmem
        rcases hmem with hmem | hmem
        · obtain ⟨ss, hv, rfl⟩ :=
            (mem_walkList true c (pre ++ p) k v hcwf).mp hmem
          exact ⟨p, c, ss, by simp [lookupC], hv, rfl⟩
        · obtain ⟨s, c2, ss, hl, hv, rfl⟩ :=
            (mem_walkListC deep rest pre k v hrest).mp hmem
          have hps : p ≠ s := by
            intro he
            rw [he, lookupC_keyMemC rest s c2 hl] at hm
            simp at hm
          refine ⟨s, c2, ss, ?_, hv, rfl⟩
          simp only [lookupC]
          rw [if_neg hps]
          exact hl
      · rintro ⟨s, c2, ss, hl, hv, rfl⟩
        simp only [lookupC] at hl
        simp only [walkListC, List.mem_append]
        by_cases hps : p = s
        · rw [if_pos hps] at hl
          cases hl
          subst hps
          left
          exact (mem_walkList true c (pre ++ p) _ v hcwf).mpr
            ⟨ss, hv, rfl⟩
        · rw [if_neg hps] at hl
          right
          exact (mem_walkListC deep rest pre _ v hrest).mpr ⟨s, c2, ss, hl, hv, rfl⟩

end

mutual

/-- Keys visited below a deep node extend the accumulated key by nothing
or by text starting with `/`. -/
theorem walkList_key_shape : ∀ (t : PathTrie T) (pre k : Str) (v : T),
    wfAux true t = true → (k, v) ∈ walkList t pre →
    ∃ r, (r = [] ∨ r.head? = some '/') ∧ k = pre ++ r
  | .mk val cs, pre, k, v, hwf, hm => by
      simp only [walkList, List.mem_append] at hm
      rcases hm with hroot | hchild
      · cases val with
        | none => simp at hroot
        | some v0 =>
            simp only [List.mem_singleton, Prod.mk.injEq] at hroot
            exact ⟨[], Or.inl rfl, by simp [hroot.1.symm]⟩
      · obtain ⟨s, r, _, hok, hcat, hk⟩ :=
          walkListC_key_shape true cs pre k v hwf hchild
        obtain ⟨hne, hhd⟩ := deepStrB_spec (show DeepStrB s = true from hok)
        refine ⟨s ++ r, Or.inr ?_, by rw [hk, List.append_assoc]⟩
        cases s with
        | nil => exact absurd rfl hne
        | cons s0 s' => simpa using hhd

theorem walkListC_key_shape (deep : Bool) : ∀ (cs : ChildMap T) (pre k : Str) (v : T),
    wfAuxC deep cs = true → (k, v) ∈ walkListC cs pre →
    ∃ s r, s ∈ keysC cs ∧ KeyOKB deep s = true ∧
      (r = [] ∨ r.head? = some '/') ∧ k = (pre ++ s) ++ r
  | .nil, pre, k, v, _, hm => by simp [walkListC] at hm
  | .cons p c rest, pre, k, v, hwf, hm => by
      have hw := hwf
      simp only [wfAuxC, Bool.and_eq_true] at hw
      obtain ⟨⟨⟨hk, _⟩, hcwf⟩, hrest⟩ := hw
      simp only [walkListC, List.mem_append] at hm
      rcases hm with hm | hm
      · obtain ⟨r, hcat, hkr⟩ := walkList_key_shape c (pre ++ p) k v hcwf hm
        exact ⟨p, r, by simp [keysC], hk, hcat, hkr⟩
      · obtain ⟨s, r, hmem, hok, hcat, hkr⟩ :=
          walkListC_key_shape deep rest pre k v hrest hm
        exact ⟨s, r, by simp [keysC, hmem], hok, hcat, hkr⟩

end

mutual

theorem nodup_walkList (deep : Bool) : ∀ (t : PathTrie T) (pre : Str),
    wfAux deep t = true → ((walkList t pre).map Prod.fst).Nodup
  | .mk val cs, pre, hwf => by
      have hC := nodup_walkListC deep cs pre hwf
      cases val with
      | none => simpa [walkList] using hC
      | some v =>
          simp only [walkList, List.singleton_append, List.map_cons, List.nodup_cons]
          refine ⟨?_, hC⟩
          intro hmem
          obtain ⟨⟨k2, v2⟩, hm2, hf⟩ := List.mem_map.mp hmem
          obtain ⟨s, c, ss, hl, _, hk⟩ :=
            (mem_walkListC deep cs pre k2 v2 hwf).mp hm2
          have hs : s ≠ [] := keyOKB_ne_nil (lookupC_keyOK cs s c hwf hl)
          have : pre = pre ++ s ++ ss.flatten := by
            rw [← hk]
            exact hf.symm
          have hlen := congrArg List.length this
          rw [List.length_append, List.length_append] at hlen
          exact hs (List.eq_nil_of_length_eq_zero (by omega))

theorem nodup_walkListC (deep : Bool) : ∀ (cs : ChildMap T) (pre : Str),
    wfAuxC deep cs = true → ((walkListC cs pre).map Prod.fst).Nodup
  | .nil, pre, _ => by simp [walkListC]
  | .cons p c rest, pre, hwf => by
      have hw := hwf
      simp only [wfAuxC, Bool.and_eq_true] at hw
      obtain ⟨⟨⟨hk, hm⟩, hcwf⟩, hrest⟩ := hw
      simp only [walkListC, List.map_append]
      refine List.Nodup.append (nodup_walkList true c (pre ++ p) hcwf)
        (nodup_walkListC deep rest pre hrest) ?_
      intro a ha hb
      obtain ⟨⟨k1, v1⟩, hm1, hf1⟩ := List.mem_map.mp ha
      obtain ⟨⟨k2, v2⟩, hm2, hf2⟩ := List.mem_map.mp hb
      obtain ⟨r1, hcat1, hk1⟩ := walkList_key_shape c (pre ++ p) k1 v1 hcwf hm1
      obtain ⟨s2, r2, hmem2, hok2, hcat2, hk2⟩ :=
        walkListC_key_shape deep rest pre k2 v2 hrest hm2
      have he : (pre ++ p) ++ r1 = (pre ++ s2) ++ r2 := by
        rw [← hk1, ← hk2]
        simp only at hf1 hf2
        rw [hf1, hf2]
      rw [List.append_assoc, List.append_assoc] at he
      have he2 : p ++ r1 = s2 ++ r2 := List.append_cancel_left he
      have hps : p = s2 :=
        seg_append_inj (keyOKB_SegStrB hk) (keyOKB_SegStrB hok2) hcat1 hcat2 he2
      rw [← hps] at hmem2
      rw [← keyMemC_eq_mem] at hmem2
      rw [hmem2] at hm
      simp at hm

end

/-- C5: on a well-formed trie, `Walk`'s visit sequence (`walkList t []`,
which `Walk` feeds to the walker — see `walker_error_propagation`)
contains a pair `(k, v)` exactly when some segment path from the root
stores value `v` at a node and `k` is the concatenation of its segments;
and the visited keys are pairwise distinct, so each stored key is visited
exactly once, with the reconstructed key.  Valueless (internal) nodes
contribute nothing. -/
theorem walk_visits_exactly_stored (t : PathTrie T) (hwf : wfb t = true) :
    (∀ (k : Str) (v : T), (k, v) ∈ walkList t [] ↔
        ∃ ss : List Str, valAt t ss = some v ∧ k = ss.flatten) ∧
      ((walkList t []).map Prod.fst).Nodup := by
  constructor
  · intro k v
    have h := mem_walkList false t [] k v hwf
    simpa using h
  · exact nodup_walkList false t [] hwf

/-- Witness for C5: the two-key trie `/a` ↦ 7, `/a/b` ↦ 1. -/
theorem walk_visits_exactly_stored_witness :
    wfb t3 = true ∧
      ((∀ (k : Str) (v : Nat), (k, v) ∈ walkList t3 [] ↔
          ∃ ss : List Str, valAt t3 ss = some v ∧ k = ss.flatten) ∧
        ((walkList t3 []).map Prod.fst).Nodup) :=
  ⟨rfl, walk_visits_exactly_stored t3 rfl⟩

/-! ### C9: RecursiveDirectChildren -/

theorem entriesC_appendC (a b : ChildMap T) :
    entriesC (appendC a b) = entriesC a ++ entriesC b := by
  induction a using ChildMap.inductOn with
  | hnil => rfl
  | hcons p c rest ih => simp [appendC, entriesC, ih]

theorem entriesC_addPre (p : Str) (cs : ChildMap T) :
    entriesC (addPre p cs) = (entriesC cs).map (fun e => (p ++ e.1, e.2)) := by
  induction cs using ChildMap.inductOn with
  | hnil => rfl
  | hcons q c rest ih => simp [addPre, entriesC, ih]

/-- `n` is the nearest value-bearing node reached from `c` by the segment
path `ss`: the path exists, `n` holds a value, and every node strictly
before `n` on the path — including `c` itself when `ss ≠ []` — holds
none. -/
def chainNearest (c : PathTrie T) (ss : List Str) (n : PathTrie T) : Prop :=
  lookupPath c ss = some n ∧ n.Value.isSome = true ∧
    ∀ i, i < ss.length → valAt c (ss.take i) = none

theorem lookupPath_cons (t : PathTrie T) (s : Str) (ss : List Str) :
    lookupPath t (s :: ss) =
      match lookupC t.Children s with
      | none => none
      | some c => lookupPath c ss := rfl

theorem chainNearest_cons {c : PathTrie T} {s2 : Str} {ss2 : List Str}
    {n : PathTrie T} :
    chainNearest c (s2 :: ss2) n ↔
      c.Value = none ∧
        ∃ c2, lookupC c.Children s2 = some c2 ∧ chainNearest c2 ss2 n := by
  constructor
  · rintro ⟨hlp, hsome, hmid⟩
    have hcv : c.Value = none := by
      have h0 := hmid 0 (by simp)
      rwa [List.take_zero, valAt_nil] at h0
    rw [lookupPath_cons] at hlp
    cases hl : lookupC c.Children s2 with
    | none => rw [hl] at hlp; simp at hlp
    | some c2 =>
        rw [hl] at hlp
        refine ⟨hcv, c2, rfl, hlp, hsome, ?_⟩
        intro i hi
        have h := hmid (i + 1) (by simpa using hi)
        rwa [List.take_succ_cons, valAt_cons_lookup hl] at h
  · rintro ⟨hcv, c2, hl, hlp, hsome, hmid⟩
    refine ⟨by rw [lookupPath_cons, hl]; exact hlp, hsome, ?_⟩
    intro i hi
    cases i with
    | zero => rw [List.take_zero, valAt_nil]; exact hcv
    | succ j =>
        rw [List.take_succ_cons, valAt_cons_lookup hl]
        exact hmid j (by simpa using hi)

/-- Keys of `RecursiveDirectChildren` below a deep node are nonempty and
start with `/`. -/
theorem rdcC_keys_head (cs : ChildMap T) (h : wfAuxC true cs = true) :
    ∀ q ∈ keysC (rdcC cs), q ≠ [] ∧ q.head? = some '/' := by
  induction cs using ChildMap.inductOn with
  | hnil => intro q hq; simp [rdcC, keysC] at hq
  | hcons p c rest ih =>
      simp only [wfAuxC, Bool.and_eq_true] at h
      obtain ⟨⟨⟨hk, _⟩, _⟩, hrest⟩ := h
      have hkd : DeepStrB p = true := hk
      intro q hq
      simp only [rdcC] at hq
      cases hv : c.Value with
      | some v =>
          simp only [hv, keysC, List.mem_cons] at hq
          rcases hq with rfl | hq
          · exact deepStrB_spec hkd
          · exact ih hrest q hq
      | none =>
          simp only [hv, keysC_appendC, keysC_addPre, List.mem_append,
            List.mem_map] at hq
          rcases hq with ⟨q', _, rfl⟩ | hq
          · obtain ⟨hne, hhd⟩ := deepStrB_spec hkd
            constructor
            · cases p <;> simp_all
            · cases p with
              | nil => exact absurd rfl hne
              | cons p0 p' => simpa using hhd
          · exact ih hrest q hq

theorem RDC_eq (t : PathTrie T) : t.RecursiveDirectChildren = rdcC t.Children := by
  cases t
  rfl

theorem sizeOf_children_lt (c : PathTrie T) : sizeOf c.Children < sizeOf c := by
  cases c with
  | mk v cs => simp [PathTrie.Children]

theorem mem_rdcC (deep : Bool) : ∀ (cs : ChildMap T) (k : Str) (n : PathTrie T),
    wfAuxC deep cs = true →
    ((k, n) ∈ entriesC (rdcC cs) ↔
      ∃ (s : Str) (c : PathTrie T) (ss : List Str),
        lookupC cs s = some c ∧ chainNearest c ss n ∧ k = s ++ ss.flatten)
  | .nil, k, n, _ => by
      constructor
      · intro hm; simp [rdcC, entriesC] at hm
      · rintro ⟨s, c, ss, hl, _, _⟩; simp [lookupC] at hl
  | .cons p c rest, k, n, hwf => by
      have hw := hwf
      simp only [wfAuxC, Bool.and_eq_true] at hw
      obtain ⟨⟨⟨hk, hm⟩, hcwf⟩, hrest⟩ := hw
      have hccs : wfAuxC true c.Children = true := by
        rw [← wfAux_children]; exact hcwf
      constructor
      · intro hmem
        simp only [rdcC] at hmem
        cases hv : c.Value with
        | some v =>
            rw [hv] at hmem
            simp only [entriesC, List.mem_cons, Prod.mk.injEq] at hmem
            rcases hmem with ⟨he1, he2⟩ | hmem
            · refine ⟨p, c, [], by simp [lookupC],
                ⟨by rw [he2]; rfl, ?_, ?_⟩, by simp [he1]⟩
              · rw [he2, hv]
                rfl
              · intro i hi
                simp at hi
            · obtain ⟨s, c2, ss, hl, hch, hk2⟩ :=
                (mem_rdcC deep rest k n hrest).mp hmem
              have hps : p ≠ s := by
                intro he
                rw [he, lookupC_keyMemC rest s c2 hl] at hm
                simp at hm
              refine ⟨s, c2, ss, ?_, hch, hk2⟩
              simp only [lookupC]
              rw [if_neg hps]
              exact hl
        | none =>
            rw [hv] at hmem
            rw [entriesC_appendC, entriesC_addPre] at hmem
            rcases List.mem_append.mp hmem with hmem | hmem
            · obtain ⟨⟨q, n2⟩, hq, he⟩ := List.mem_map.mp hmem
              simp only [Prod.mk.injEq] at he
              obtain ⟨he1, he2⟩ := he
              rw [RDC_eq] at hq
              obtain ⟨s2, c2, ss2, hl2, hch2, hq2⟩ :=
                (mem_rdcC true c.Children q n2 hccs).mp hq
              subst he2
              refine ⟨p, c, s2 :: ss2, by simp [lookupC], ?_, ?_⟩
              · exact chainNearest_cons.mpr ⟨hv, c2, hl2, hch2⟩
              · rw [← he1, hq2]
                simp
            · obtain ⟨s, c2, ss, hl, hch, hk2⟩ :=
                (mem_rdcC deep rest k n hrest).mp hmem
              have hps : p ≠ s := by
                intro he
                rw [he, lookupC_keyMemC rest s c2 hl] at hm
                simp at hm
              refine ⟨s, c2, ss, ?_, hch, hk2⟩
              simp only [lookupC]
              rw [if_neg hps]
              exact hl
      · rintro ⟨s, c2, ss, hl, hch, rfl⟩
        simp only [lookupC] at hl
        by_cases hps : p = s
        · rw [if_pos hps] at hl
          cases hl
          subst hps
          cases ss with
          | nil =>
              obtain ⟨hlp, hsome, _⟩ := hch
              simp only [lookupPath, Option.some.injEq] at hlp
              subst hlp
              simp only [rdcC]
              cases hv : c.Value with
              | none => rw [hv] at hsome; simp at hsome
              | some v => simp [entriesC]
          | cons s2 ss2 =>
              obtain ⟨hcv, c3, hl3, hch3⟩ := chainNearest_cons.mp hch
              simp only [rdcC, hcv]
              rw [entriesC_appendC, entriesC_addPre]
              refine List.mem_append.mpr (Or.inl ?_)
              refine List.mem_map.mpr ⟨(s2 ++ ss2.flatten, n), ?_, by simp⟩
              rw [RDC_eq]
              exact (mem_rdcC true c.Children (s2 ++ ss2.flatten) n
                hccs).mpr ⟨s2, c3, ss2, hl3, hch3, rfl⟩
        · rw [if_neg hps] at hl
          have hmemr : (s ++ ss.flatten, n) ∈ entriesC (rdcC rest) :=
            (mem_rdcC deep rest (s ++ ss.flatten) n hrest).mpr ⟨s, c2, ss, hl, hch, rfl⟩
          simp only [rdcC]
          cases hv : c.Value with
          | some v => simp only [entriesC, List.mem_cons]; right; exact hmemr
          | none =>
              rw [entriesC_appendC, entriesC_addPre]
              exact List.mem_append.mpr (Or.inr hmemr)
termination_by cs _ _ _ => sizeOf cs
decreasing_by
  all_goals
    have hlt := sizeOf_children_lt c
    simp only [ChildMap.cons.sizeOf_spec] at *
    omega

theorem keysC_of_entriesC (cs : ChildMap T) (q : Str) (n : PathTrie T)
    (h : (q, n) ∈ entriesC cs) : q ∈ keysC cs := by
  induction cs using ChildMap.inductOn with
  | hnil => simp [entriesC] at h
  | hcons p c rest ih =>
      simp only [entriesC, List.mem_cons, Prod.mk.injEq] at h
      rcases h with ⟨he, _⟩ | h
      · simp [keysC, he]
      · simp [keysC, ih h]

theorem rdcC_key_shape (deep : Bool) (cs : ChildMap T) : ∀ (k : Str) (n : PathTrie T),
    wfAuxC deep cs = true → (k, n) ∈ entriesC (rdcC cs) →
    ∃ s r, s ∈ keysC cs ∧ KeyOKB deep s = true ∧
      (r = [] ∨ r.head? = some '/') ∧ k = s ++ r := by
  induction cs using ChildMap.inductOn with
  | hnil => intro k n _ hm; simp [rdcC, entriesC] at hm
  | hcons p c rest ih =>
      intro k n hwf hm
      simp only [wfAuxC, Bool.and_eq_true] at hwf
      obtain ⟨⟨⟨hk, _⟩, hcwf⟩, hrest⟩ := hwf
      simp only [rdcC] at hm
      cases hv : c.Value with
      | some v =>
          rw [hv] at hm
          simp only [entriesC, List.mem_cons, Prod.mk.injEq] at hm
          rcases hm with ⟨he1, _⟩ | hm
          · exact ⟨p, [], by simp [keysC], hk, Or.inl rfl, by simp [he1]⟩
          · obtain ⟨s, r, hsm, hok, hcat, hke⟩ := ih k n hrest hm
            exact ⟨s, r, by simp [keysC, hsm], hok, hcat, hke⟩
      | none =>
          rw [hv] at hm
          rw [entriesC_appendC, entriesC_addPre] at hm
          rcases List.mem_append.mp hm with hm | hm
          · obtain ⟨⟨q, n2⟩, hq, he⟩ := List.mem_map.mp hm
            simp only [Prod.mk.injEq] at he
            rw [RDC_eq] at hq
            have hqk := rdcC_keys_head c.Children
              (by rw [← wfAux_children]; exact hcwf) q
              (keysC_of_entriesC _ q n2 hq)
            refine ⟨p, q, by simp [keysC], hk, Or.inr hqk.2, ?_⟩
            rw [← he.1]
          · obtain ⟨s, r, hsm, hok, hcat, hke⟩ := ih k n hrest hm
            exact ⟨s, r, by simp [keysC, hsm], hok, hcat, hke⟩

theorem map_fst_entriesC_addPre (p : Str) (cs : ChildMap T) :
    (entriesC (addPre p cs)).map Prod.fst =
      ((entriesC cs).map Prod.fst).map (p ++ ·) := by
  induction cs using ChildMap.inductOn with
  | hnil => rfl
  | hcons q c rest ih => simp [addPre, entriesC, ih]

theorem nodup_rdcC (deep : Bool) : ∀ (cs : ChildMap T),
    wfAuxC deep cs = true → ((entriesC (rdcC cs)).map Prod.fst).Nodup
  | .nil, _ => by simp [rdcC, entriesC]
  | .cons p c rest, hwf => by
      have hw := hwf
      simp only [wfAuxC, Bool.and_eq_true] at hw
      obtain ⟨⟨⟨hk, hm⟩, hcwf⟩, hrest⟩ := hw
      have hccs : wfAuxC true c.Children = true := by
        rw [← wfAux_children]; exact hcwf
      simp only [rdcC]
      cases hv : c.Value with
      | some v =>
          simp only [entriesC, List.map_cons, List.nodup_cons]
          refine ⟨?_, nodup_rdcC deep rest hrest⟩
          intro hmem
          obtain ⟨⟨k2, n2⟩, hm2, hf⟩ := List.mem_map.mp hmem
          obtain ⟨s2, r2, hsm2, hok2, hcat2, hke2⟩ :=
            rdcC_key_shape deep rest k2 n2 hrest hm2
          have he : p ++ [] = s2 ++ r2 := by
            simp only at hf
            rw [← hke2, hf]
            simp
          have hps : p = s2 :=
            seg_append_inj (keyOKB_SegStrB hk) (keyOKB_SegStrB hok2)
              (Or.inl rfl) hcat2 he
          rw [← hps] at hsm2
          rw [← keyMemC_eq_mem] at hsm2
          rw [hsm2] at hm
          simp at hm
      | none =>
          rw [entriesC_appendC, List.map_append]
          refine List.Nodup.append ?_ (nodup_rdcC deep rest hrest) ?_
          · rw [map_fst_entriesC_addPre]
            refine List.Nodup.map (fun a b hab => List.append_cancel_left hab) ?_
            rw [RDC_eq]
            exact nodup_rdcC true c.Children hccs
          · intro a ha hb
            rw [map_fst_entriesC_addPre] at ha
            obtain ⟨q, hq, rfl⟩ := List.mem_map.mp ha
            obtain ⟨⟨q0, n1⟩, hq0, hfq⟩ := List.mem_map.mp hq
            rw [RDC_eq] at hq0
            have hqk := rdcC_keys_head c.Children hccs q0
              (keysC_of_entriesC _ q0 n1 hq0)
            obtain ⟨⟨k2, n2⟩, hm2, hfb⟩ := List.mem_map.mp hb
            obtain ⟨s2, r2, hsm2, hok2, hcat2, hke2⟩ :=
              rdcC_key_shape deep rest k2 n2 hrest hm2
            simp only at hfq hfb
            have hqh : q ≠ [] ∧ q.head? = some '/' := hfq ▸ hqk
            have he : p ++ q = s2 ++ r2 := hfb.symm.trans hke2
            have hps : p = s2 :=
              seg_append_inj (keyOKB_SegStrB hk) (keyOKB_SegStrB hok2)
                (Or.inr hqh.2) hcat2 he
            rw [← hps] at hsm2
            rw [← keyMemC_eq_mem] at hsm2
            rw [hsm2] at hm
            simp at hm
termination_by cs _ => sizeOf cs
decreasing_by
  all_goals
    have hlt := sizeOf_children_lt c
    simp only [ChildMap.cons.sizeOf_spec] at *
    omega

/-- C9: on a well-formed trie node, `RecursiveDirectChildren` is exactly
the mapping of nearest value-bearing descendants: it contains an entry
`(k, n)` precisely when `n` is a value-bearing descendant reached by a
nonempty segment path all of whose strictly earlier nodes (below the
current node) are valueless, with `k` the concatenation of the path's
segments; and its keys are pairwise distinct, so it is a genuine map with
one entry per such branch. -/
theorem rdc_nearest_valued (t : PathTrie T) (hwf : wfb t = true) :
    (∀ (k : Str) (n : PathTrie T),
      (k, n) ∈ entriesC t.RecursiveDirectChildren ↔
        ∃ ss : List Str, ss ≠ [] ∧ lookupPath t ss = some n ∧
          n.Value.isSome = true ∧
          (∀ i, i < ss.length → 0 < i → valAt t (ss.take i) = none) ∧
          k = ss.flatten) ∧
      ((entriesC t.RecursiveDirectChildren).map Prod.fst).Nodup := by
  refine ⟨?_, ?_⟩
  case refine_2 =>
    rw [RDC_eq]
    cases t with
    | mk val cs => exact nodup_rdcC false cs hwf
  intro k n
  cases t with
  | mk val cs =>
      have hme := mem_rdcC false cs k n hwf
      constructor
      · intro hmem
        obtain ⟨s, c, ss, hl, ⟨hlp, hsome, hmid⟩, rfl⟩ := hme.mp hmem
        refine ⟨s :: ss, by simp, ?_, hsome, ?_, by simp⟩
        · rw [lookupPath_cons]
          simp only [PathTrie.Children]
          rw [hl]
          exact hlp
        · intro i hi hpos
          cases i with
          | zero => simp at hpos
          | succ j =>
              rw [List.take_succ_cons,
                valAt_cons_lookup (show lookupC (PathTrie.mk val cs).Children s
                  = some c from hl)]
              exact hmid j (by simpa using hi)
      · rintro ⟨ss, hne, hlp, hsome, hmid, rfl⟩
        cases ss with
        | nil => exact absurd rfl hne
        | cons s ss2 =>
            rw [lookupPath_cons] at hlp
            cases hl : lookupC (PathTrie.mk val cs).Children s with
            | none => rw [hl] at hlp; simp at hlp
            | some c =>
                rw [hl] at hlp
                refine hme.mpr ⟨s, c, ss2, hl, ⟨hlp, hsome, ?_⟩, by simp⟩
                intro i hi
                have h := hmid (i + 1) (by simpa using hi) (by omega)
                rwa [List.take_succ_cons, valAt_cons_lookup hl] at h

def kBC : Str := ['/', 'b', '/', 'c']

/-- The spec's example subtree (the node at `/a`): values only at `/b/c`
(nearest valued descendant of the `/b` branch, through valueless `/b`)
and at `/x`. -/
def t9 : PathTrie Nat := (NewPathTrie.Put kBC 1).Put kX 2

/-- Witness for C9 at the spec's example. -/
theorem rdc_nearest_valued_witness :
    wfb t9 = true ∧
      ((∀ (k : Str) (n : PathTrie Nat),
        (k, n) ∈ entriesC t9.RecursiveDirectChildren ↔
          ∃ ss : List Str, ss ≠ [] ∧ lookupPath t9 ss = some n ∧
            n.Value.isSome = true ∧
            (∀ i, i < ss.length → 0 < i → valAt t9 (ss.take i) = none) ∧
            k = ss.flatten) ∧
        ((entriesC t9.RecursiveDirectChildren).map Prod.fst).Nodup) :=
  ⟨rfl, rdc_nearest_valued t9 rfl⟩

end Trie
